import Mathlib

/-!
Verification of the JSON code-snippet extractor and request-resolution policy
of `code_explainer/code_explainer.py`.

The JSON data model is embedded as a tagged union (mutual inductive types for
values, array spines and object entry lists).  Python `dict`s preserve insertion
order, which the entry-list order models; JSON numbers are modelled as integers
(floating point numbers play no role in any property below).  Word characters,
whitespace and lower-casing are modelled over ASCII; the source's regular
expression is Unicode-aware, but every behaviour examined here is ASCII.
-/

mutual

inductive JsonValue where
  | null : JsonValue
  | bool : Bool → JsonValue
  | num : Int → JsonValue
  | str : String → JsonValue
  | arr : JsonArr → JsonValue
  | obj : JsonObj → JsonValue

inductive JsonArr where
  | nil : JsonArr
  | cons : JsonValue → JsonArr → JsonArr

inductive JsonObj where
  | nil : JsonObj
  | cons : String → JsonValue → JsonObj → JsonObj

end

/-- `dict.get(key)`: the value stored under `key`, if any (Python dicts have
unique keys; for a well-formed object this is the unique binding). -/
def lookupVal : JsonObj → String → Option JsonValue
  | .nil, _ => none
  | .cons k v rest, key => if k = key then some v else lookupVal rest key

def hasKey (es : JsonObj) (k : String) : Bool := (lookupVal es k).isSome

def jlen : JsonArr → Nat
  | .nil => 0
  | .cons _ rest => jlen rest + 1

/-- `xs[i]` for a non-negative in-range index. -/
def jget? : JsonArr → Nat → Option JsonValue
  | .nil, _ => none
  | .cons v _, 0 => some v
  | .cons _ rest, n + 1 => jget? rest n

def arrToList : JsonArr → List JsonValue
  | .nil => []
  | .cons v rest => v :: arrToList rest

/-- Python truthiness of a JSON value: `None`, `False`, `0`, `""`, `[]` and
`\x7b\x7d` are falsy, everything else truthy. -/
def pyTruthy : JsonValue → Bool
  | .null => false
  | .bool b => b
  | .num n => n != 0
  | .str s => s != ""
  | .arr .nil => false
  | .arr (.cons _ _) => true
  | .obj .nil => false
  | .obj (.cons _ _ _) => true

/-- The ASCII whitespace characters stripped by `str.strip()` (and matched by
`\s`): space, tab, newline, carriage return, vertical tab, form feed. -/
def pyWs (c : Char) : Bool :=
  c = ' ' || c = '\t' || c = '\n' || c = '\r' || c = '\x0b' || c = '\x0c'

def stripWsChars (cs : List Char) : List Char :=
  ((cs.dropWhile pyWs).reverse.dropWhile pyWs).reverse

/-- `s.strip()`. -/
def pyStrip (s : String) : String := ⟨stripWsChars s.data⟩

/-- `s.count("\n")`: occurrences of the newline character. -/
def countNl (s : String) : Nat := s.data.count '\n'

/-- The ten decimal digit characters. -/
def decChars : List Char := ['0', '1', '2', '3', '4', '5', '6', '7', '8', '9']

/-- Decimal digits, most significant first; structural recursion on a fuel
bound (any fuel above the value itself suffices). -/
def natDigitsAux : Nat → Nat → List Char
  | 0, _ => []
  | fuel + 1, n =>
    if n < 10 then [Nat.digitChar n]
    else natDigitsAux fuel (n / 10) ++ [Nat.digitChar (n % 10)]

/-- Decimal digits of `n`, most significant first, as produced by `str(n)`
for a non-negative integer. -/
def natDigits (n : Nat) : List Char := natDigitsAux (n + 1) n

def natToStr (n : Nat) : String := ⟨natDigits n⟩

/-- `str(n)` for an integer. -/
def intStr (n : Int) : String :=
  if n < 0 then "-" ++ natToStr (-n).toNat else natToStr n.toNat

/-- The walker's sequence-index path token `f"[\x7bi\x7d]"`. -/
def indexTok (i : Nat) : String := "[" ++ natToStr i ++ "]"

def digitVal (c : Char) : Nat := c.toNat - 48

/-- Digit-string to number (the core of Python `int(...)` after sign and
whitespace handling); `none` when empty or a non-digit appears. -/
def charsToNat? (cs : List Char) : Option Nat :=
  if cs.isEmpty then none
  else if cs.all Char.isDigit then some (cs.foldl (fun a c => a * 10 + digitVal c) 0)
  else none

/-- `int(s)`: strips surrounding whitespace, allows one leading sign, then
decimal digits.  (Underscore digit separators accepted by Python are not
modelled; no behaviour below depends on them.)  `none` models `ValueError`. -/
def pyInt (s : String) : Option Int :=
  match stripWsChars s.data with
  | [] => none
  | c :: rest =>
    if c = '-' then (charsToNat? rest).map (fun n => -(n : Int))
    else if c = '+' then (charsToNat? rest).map (fun n => (n : Int))
    else (charsToNat? (c :: rest)).map (fun n => (n : Int))

def pyStartsWith (s pre : String) : Bool := pre.data.isPrefixOf s.data

def pyEndsWith (s post : String) : Bool := post.data.isSuffixOf s.data

/-- `p[1:-1]`. -/
def sliceInner (p : String) : String := ⟨(p.data.drop 1).dropLast⟩

/-- `s.split(".")` at the character level: splitting on every occurrence of
the separator, keeping empty fragments, `[[]]` on the empty string. -/
def splitChars : List Char → List (List Char)
  | [] => [[]]
  | c :: rest =>
    if c = '.' then [] :: splitChars rest
    else
      match splitChars rest with
      | [] => [[c]]
      | g :: gs => (c :: g) :: gs

def splitDot (s : String) : List String := (splitChars s.data).map (fun g => ⟨g⟩)

/-- `sep.join(parts)`. -/
def joinWith (sep : String) : List String → String
  | [] => ""
  | [t] => t
  | t :: ts => t ++ sep ++ joinWith sep ts

/-!  ### The recognition regex `CODE_TOKEN_RE`

`\b(def|class|function|const|let|var|import|from|public|private|if\s*\(|for\s*\(|while\s*\(|=>|console\.log|print\(|println\()`
compiled with `re.IGNORECASE`.  A search succeeds when some position of the
string is a word boundary at which one alternative matches.  Only the leading
`\b` is present: nothing is required after an alternative.  -/

def isWordChar (c : Char) : Bool := c.isAlpha || c.isDigit || c = '_'

/-- Case-insensitive literal match of `pat` (given lower-case) against a
prefix of `cs`; returns the remainder on success. -/
def matchCI : List Char → List Char → Option (List Char)
  | [], cs => some cs
  | _ :: _, [] => none
  | p :: ps, c :: cs => if c.toLower = p then matchCI ps cs else none

def litCI (pat : String) (cs : List Char) : Bool := (matchCI pat.data cs).isSome

/-- `kw` followed by `\s*` and an opening parenthesis. -/
def kwParenCI (kw : String) (cs : List Char) : Bool :=
  match matchCI kw.data cs with
  | some rest =>
    match rest.dropWhile pyWs with
    | '(' :: _ => true
    | _ => false
  | none => false

/-- One alternative of the recognition regex matching at the current
position. -/
def matchAltAt (cs : List Char) : Bool :=
  litCI "def" cs || litCI "class" cs || litCI "function" cs || litCI "const" cs ||
  litCI "let" cs || litCI "var" cs || litCI "import" cs || litCI "from" cs ||
  litCI "public" cs || litCI "private" cs ||
  kwParenCI "if" cs || kwParenCI "for" cs || kwParenCI "while" cs ||
  litCI "=>" cs || litCI "console.log" cs || litCI "print(" cs || litCI "println(" cs

/-- Scan: `prevW` is the word-character status of the preceding character
(`false` at the start); a match may begin wherever that status differs from
the current character's (the `\b` boundary). -/
def scanToken : Bool → List Char → Bool
  | _, [] => false
  | prevW, c :: cs =>
    ((prevW != isWordChar c) && matchAltAt (c :: cs)) || scanToken (isWordChar c) cs

/-- `CODE_TOKEN_RE.search(s) is not None`. -/
def hasCodeToken (s : String) : Bool := scanToken false s.data

/-! ### `str(...)` / `repr(...)` coercion -/

mutual

/-- Python `repr` of a JSON value (string escaping inside `repr` is not
modelled; no property below inspects the text of a coerced composite). -/
def pyRepr : JsonValue → String
  | .null => "None"
  | .bool b => if b then "True" else "False"
  | .num n => intStr n
  | .str s => "'" ++ s ++ "'"
  | .arr vs => "[" ++ pyReprArr vs ++ "]"
  | .obj es => "\x7b" ++ pyReprObj es ++ "\x7d"

def pyReprArr : JsonArr → String
  | .nil => ""
  | .cons v .nil => pyRepr v
  | .cons v rest => pyRepr v ++ ", " ++ pyReprArr rest

def pyReprObj : JsonObj → String
  | .nil => ""
  | .cons k v .nil => "'" ++ k ++ "': " ++ pyRepr v
  | .cons k v rest => "'" ++ k ++ "': " ++ pyRepr v ++ ", " ++ pyReprObj rest

end

/-- Python `str(x)`. -/
def pyStr : JsonValue → String
  | .str s => s
  | v => pyRepr v

/-- `str(x) for x in value if isinstance(x, (str, int, float))` — note that
Python `bool` is a subtype of `int`, so booleans pass the filter and render
as `True` / `False`. -/
def primStrings : JsonArr → List String
  | .nil => []
  | .cons v rest =>
    match v with
    | .str s => s :: primStrings rest
    | .num n => intStr n :: primStrings rest
    | .bool b => (if b then "True" else "False") :: primStrings rest
    | _ => primStrings rest

/-- `normalize_code` (lines 20-27): `None` propagates as failure, strings are
used as-is, lists are newline-joined over their primitive elements, anything
else is coerced with `str`. -/
def normalize_code : JsonValue → Option String
  | .null => none
  | .str s => some s
  | .arr vs => some (joinWith "\n" (primStrings vs))
  | v => some (pyStr v)

/-! ### The extractor `extract_code_from_json` (lines 29-53) -/

/-- A scored candidate: `(score, s, path_tokens.copy())` of line 45. -/
structure Cand where
  score : Nat
  text : String
  path : List String
deriving DecidableEq

mutual

/-- The recursive `walk` of lines 33-45, collecting candidates in depth-first
pre-order: dict entries in insertion order, list elements in index order;
a string leaf is kept only when its stripped length is at least 10, scored
`s.count("\n") * 10 + (20 if CODE_TOKEN_RE.search(s) else 0)`. -/
def walk : JsonValue → List String → List Cand
  | .obj es, path => walkObj es path
  | .arr vs, path => walkArrFrom vs 0 path
  | .str o, path =>
    let s := pyStrip o
    if s.length < 10 then []
    else [⟨countNl s * 10 + (if hasCodeToken s then 20 else 0), s, path⟩]
  | .null, _ => []
  | .bool _, _ => []
  | .num _, _ => []

def walkObj : JsonObj → List String → List Cand
  | .nil, _ => []
  | .cons k v rest, path => walk v (path ++ [k]) ++ walkObj rest path

def walkArrFrom : JsonArr → Nat → List String → List Cand
  | .nil, _, _ => []
  | .cons v rest, i, path => walk v (path ++ [indexTok i]) ++ walkArrFrom rest (i + 1) path

end

def candidates (obj : JsonValue) : List Cand := walk obj []

/-- Stable insertion for descending-score order: the inserted element goes
before the first element whose score does not exceed it. -/
def insertDesc (c : Cand) : List Cand → List Cand
  | [] => [c]
  | d :: ds => if d.score ≤ c.score then c :: d :: ds else d :: insertDesc c ds

/-- `candidates.sort(key=lambda x: x[0], reverse=True)` — Python's sort is
stable, and `reverse=True` keeps equal elements in their original order. -/
def sortCands : List Cand → List Cand
  | [] => []
  | c :: cs => insertDesc c (sortCands cs)

/-- `extract_code_from_json`: the top candidate after the stable descending
sort, its text and its path tokens joined with `"."`. -/
def extract_code_from_json (obj : JsonValue) : Option String × Option String :=
  match sortCands (walk obj []) with
  | [] => (none, none)
  | c :: _ => (some c.text, some (joinWith "." c.path))

/-! ### The request handler `explain_json_route` (lines 97-180)

The route is modelled as a pure function of the parsed request body
(`none` models `request.get_json(silent=True)` returning `None`).  The
external generation call is opaque: a success result records the data the
handler has resolved before calling it, `crash` models an uncaught Python
exception (HTTP 500). -/

/-- Python list indexing `xs[i]` with negative indices counting from the
end; `none` models `IndexError`. -/
def idxArr (vs : JsonArr) (i : Int) : Option JsonValue :=
  if 0 ≤ i then jget? vs i.toNat
  else if 0 ≤ (jlen vs : Int) + i then jget? vs ((jlen vs : Int) + i).toNat
  else none

/-- Python string indexing `s[i]`, yielding a one-character string. -/
def idxChars (cs : List Char) (i : Int) : Option Char :=
  if 0 ≤ i then cs.get? i.toNat
  else if 0 ≤ (cs.length : Int) + i then cs.get? ((cs.length : Int) + i).toNat
  else none

/-- One step of the explicit-path walk (lines 113-117): a `[i]`-shaped part
indexes a sequence (or a string — Python strings are indexable), any other
part is `cur.get(p)`, which yields `None` (null) for a missing key; `none`
models any raised exception (`ValueError` from `int`, `AttributeError` from
`.get` on a non-dict, `KeyError` / `TypeError` / `IndexError` from
indexing). -/
def walkStep (cur : JsonValue) (p : String) : Option JsonValue :=
  if pyStartsWith p "[" && pyEndsWith p "]" then
    match pyInt (sliceInner p) with
    | none => none
    | some i =>
      match cur with
      | .arr vs => idxArr vs i
      | .str s => (idxChars s.data i).map (fun c => .str ⟨[c]⟩)
      | _ => none
  else
    match cur with
    | .obj es => some ((lookupVal es p).getD .null)
    | _ => none

/-- The `for p in parts` loop of lines 113-117; a raised exception aborts
the whole walk. -/
def walkParts (cur : JsonValue) : List String → Option JsonValue
  | [] => some cur
  | p :: ps =>
    match walkStep cur p with
    | some next => walkParts next ps
    | none => none

/-- The value of `code_value` produced by the explicit-path strategy:
the walked value normalized, `none` when the walk raised or the value
normalized to `None`. -/
def pathResult (payload : JsonValue) (cp : String) : Option String :=
  (walkParts payload (splitDot cp)).bind normalize_code

/-- The explicit-path strategy outcome surviving the `if not code_value`
check: the pair `(used_path, code_value)` when the walk produced a
non-empty string. -/
def pathStage (payload : JsonValue) : Option String → Option (String × String)
  | some cp =>
    match pathResult payload cp with
    | some s => if s = "" then none else some (cp, s)
    | none => none
  | none => none

def commonFields : List String := ["code", "source", "snippet", "text"]

/-- The `for common in (...)` loop of lines 125-130: the first of the four
keys whose value in `payload` is truthy, together with that raw value. -/
def findCommon (pes : JsonObj) : Option (String × JsonValue) :=
  commonFields.findSome? fun k =>
    match lookupVal pes k with
    | some v => if pyTruthy v then some (k, v) else none
    | none => none

/-- The common-field strategy outcome surviving the `if not code_value`
check: the loop breaks on the first truthy raw value, and its normalized
text is kept only when non-empty (an empty normalization falls through to
the extractor, not to later keys). -/
def commonStage (pes : JsonObj) : Option (String × String) :=
  match findCommon pes with
  | some (k, v) =>
    match normalize_code v with
    | some s => if s = "" then none else some (k, s)
    | none => none
  | none => none

/-- Lines 133-136: the heuristic extractor as the last strategy. -/
def autoStage (payload : JsonValue) : Option (String × String) :=
  match extract_code_from_json payload with
  | (some code, some p) => if code = "" then none else some (p, code)
  | _ => none

/-- Strategies two and three (lines 124-136).  `payload.get(common)` on a
non-dict payload raises `AttributeError`, which is not caught:
`Except.error` models the resulting HTTP 500. -/
def step2 (payload : JsonValue) : Except Unit (Option (String × String)) :=
  match payload with
  | .obj pes =>
    match commonStage pes with
    | some r => .ok (some r)
    | none => .ok (autoStage payload)
  | _ => .error ()

/-- The full resolution chain: explicit path first, then the remaining
strategies. -/
def resolveAll (payload : JsonValue) (cp? : Option String) : Except Unit (Option (String × String)) :=
  match pathStage payload cp? with
  | some r => .ok (some r)
  | none => step2 payload

/-- `payload = body.get("payload", body)` (line 103). -/
def payloadOf (bes : JsonObj) : JsonValue :=
  (lookupVal bes "payload").getD (.obj bes)

/-- `code_path = body.get("code_path") or None` (line 104), followed by
`code_path.split(".")` on a truthy value: a truthy non-string raises
`AttributeError` at line 110. -/
def codePathOf (bes : JsonObj) : Except Unit (Option String) :=
  match lookupVal bes "code_path" with
  | some v =>
    if pyTruthy v then
      match v with
      | .str cp => .ok (some cp)
      | _ => .error ()
    else .ok none
  | none => .ok none

/-- `code_value[:2000]`. -/
def pyTake (s : String) (n : Nat) : String := ⟨s.data.take n⟩

/-- The preview of line 174: the code itself up to 2000 characters, else its
first 2000 characters with the truncation marker appended. -/
def previewOf (code : String) : String :=
  if code.length ≤ 2000 then code else pyTake code 2000 ++ "\n... (truncated)"

/-- `language = body.get("language") or "unspecified"` (line 141); the label
is interpolated into the prompt with `str`. -/
def languageOf (bes : JsonObj) : String :=
  match lookupVal bes "language" with
  | some v => if pyTruthy v then pyStr v else "unspecified"
  | none => "unspecified"

/-- Observable outcome of one request: the 400 "Invalid request" rejection,
the 400 "No code found" failure (reached before any generation call), a
success carrying `extracted_path`, the resolved code, `extracted_preview`
and the language label, or an uncaught exception (HTTP 500). -/
inductive RouteResult where
  | invalid : RouteResult
  | noCode : RouteResult
  | ok : String → String → String → String → RouteResult
  | crash : RouteResult

/-- `explain_json_route` (lines 97-180) up to the opaque generation call:
`if not body` rejects an unparseable body and any falsy parsed body alike;
a truthy non-mapping body raises at `body.get` (line 103). -/
def explain_json_route (body? : Option JsonValue) : RouteResult :=
  match body? with
  | none => .invalid
  | some body =>
    if pyTruthy body then
      match body with
      | .obj bes =>
        match codePathOf bes with
        | .error _ => .crash
        | .ok cp? =>
          match resolveAll (payloadOf bes) cp? with
          | .error _ => .crash
          | .ok none => .noCode
          | .ok (some (up, code)) => .ok up code (previewOf code) (languageOf bes)
      | _ => .crash
    else .invalid

/-! ### Well-formed payloads for the path round trip -/

def goodKeyB (k : String) : Bool :=
  (decide (('.' : Char) ∉ k.data)) && !(pyStartsWith k "[" && pyEndsWith k "]")

mutual

/-- Keys at every depth avoid `'.'`, are not `[...]`-shaped, and are unique
within their object (Python dicts cannot hold duplicate keys). -/
def wfKeys : JsonValue → Bool
  | .obj es => wfObj es
  | .arr vs => wfArr vs
  | _ => true

def wfArr : JsonArr → Bool
  | .nil => true
  | .cons v rest => wfKeys v && wfArr rest

def wfObj : JsonObj → Bool
  | .nil => true
  | .cons k v rest => goodKeyB k && !hasKey rest k && wfKeys v && wfObj rest

end

/-! A qualifying leaf: a string leaf somewhere in the value whose stripped
length reaches the threshold of line 42. -/

mutual

def hasQualLeaf : JsonValue → Bool
  | .str o => !((pyStrip o).length < 10)
  | .arr vs => hasQualArr vs
  | .obj es => hasQualObj es
  | _ => false

def hasQualArr : JsonArr → Bool
  | .nil => false
  | .cons v rest => hasQualLeaf v || hasQualArr rest

def hasQualObj : JsonObj → Bool
  | .nil => false
  | .cons _ v rest => hasQualLeaf v || hasQualObj rest

end

/-! ### Concrete values used to instantiate the theorems -/

/-- Two qualifying leaves, no code token in either, newline counts 0 and 2. -/
def exTwoLeaves : JsonValue :=
  .obj (.cons "a" (.str "aaaaaaaaaaa") (.cons "b" (.str "bb\nbbbb\nbbb") .nil))

/-- Two qualifying leaves with identical scores. -/
def exTieLeaves : JsonValue :=
  .obj (.cons "a" (.str "xxxxxxxxxxx") (.cons "b" (.str "yyyyyyyyyyy") .nil))

/-- No string leaf of stripped length at least 10. -/
def exNoQual : JsonValue :=
  .obj (.cons "a" (.str "hi") (.cons "b" (.arr (.cons (.num 3) .nil)) .nil))

/-- The spec's example payload `\x7b"result": \x7b"answer": "def f(x): ..."\x7d\x7d`. -/
def exResult : JsonValue :=
  .obj (.cons "result" (.obj (.cons "answer" (.str "def f(x):\n    return x+1") .nil)) .nil)

/-- A qualifying leaf inside a sequence under the key `data`. -/
def exData : JsonValue :=
  .obj (.cons "data" (.arr (.cons (.str "def foo():\n  return 1") .nil)) .nil)

/-- A one-element list holding a boolean. -/
def exBoolArr : JsonValue := .arr (.cons (.bool true) .nil)

/-- A body with an out-of-range `code_path` and a valid `code` field. -/
def exFallback : JsonObj :=
  .cons "payload" (.obj (.cons "code" (.str "print(hello)") .nil))
    (.cons "code_path" (.str "data.[5]") .nil)

/-- A body holding only a `code` field. -/
def exCodeBody : JsonObj := .cons "code" (.str "print(12345)") .nil

/-- A non-empty mapping body with nothing resolvable. -/
def exPlain : JsonObj := .cons "a" (.str "hi") .nil

/-- A payload where the explicit path `a.b` resolves while `code` is also
present and truthy. -/
def exPathWins : JsonObj :=
  .cons "a" (.obj (.cons "b" (.str "x = 1234567") .nil))
    (.cons "code" (.str "print(1)") .nil)

/-- A payload whose `code` field is falsy but whose `source` field is
truthy. -/
def exCommon : JsonObj :=
  .cons "code" (.str "") (.cons "source" (.str "y = 42") .nil)

/-- A payload where only the heuristic extractor finds code. -/
def exAuto : JsonObj :=
  .cons "data" (.arr (.cons (.str "x = 1\ny = 2\nprint(x+y)") .nil)) .nil

/-- The specification-side classification of a primitive sequence element:
the element's `str(...)` text for strings, integers and booleans, `none`
for anything else. -/
def primText : JsonValue → Option String
  | .str s => some s
  | .num n => some (intStr n)
  | .bool b => some (if b then "True" else "False")
  | _ => none

/-- A string of `n` copies of `x`. -/
def repChar (n : Nat) : String := ⟨List.replicate n 'x'⟩

/-- A body resolving to a 2500-character code string via its `code` field. -/
def exLongBody : JsonObj := .cons "code" (.str (repChar 2500)) .nil

/-! ### Properties of the stable descending sort -/

theorem mem_insertDesc (a c : Cand) (l : List Cand) :
    a ∈ insertDesc c l ↔ a = c ∨ a ∈ l := by
  induction l with
  | nil => simp [insertDesc]
  | cons d ds ih =>
    simp only [insertDesc]
    split
    · simp
    · simp only [List.mem_cons, ih]
      tauto

theorem mem_sortCands (a : Cand) (l : List Cand) : a ∈ sortCands l ↔ a ∈ l := by
  induction l with
  | nil => simp [sortCands]
  | cons c cs ih => simp [sortCands, mem_insertDesc, ih]

theorem sortCands_eq_nil (l : List Cand) : sortCands l = [] ↔ l = [] := by
  cases l with
  | nil => simp [sortCands]
  | cons c cs =>
    simp only [sortCands]
    constructor
    · intro h
      have : c ∈ insertDesc c (sortCands cs) := by simp [mem_insertDesc]
      rw [h] at this
      simp at this
    · intro h
      exact absurd h (by simp)

/-- The inserted element lands in front exactly when its score dominates the
current head. -/
theorem insertDesc_cons_of_le (c d : Cand) (ds : List Cand) (h : d.score ≤ c.score) :
    insertDesc c (d :: ds) = c :: d :: ds := by
  simp [insertDesc, h]

theorem insertDesc_cons_of_gt (c d : Cand) (ds : List Cand) (h : c.score < d.score) :
    insertDesc c (d :: ds) = d :: insertDesc c ds := by
  simp [insertDesc]
  omega

/-- The first element of the original list attaining the maximal score heads
the sorted list: elements before it are strictly smaller, elements after it
no larger. -/
theorem sortCands_head_first_max (pre : List Cand) (c : Cand) (post : List Cand)
    (hpre : ∀ e ∈ pre, e.score < c.score) (hpost : ∀ e ∈ post, e.score ≤ c.score) :
    ∃ rest, sortCands (pre ++ c :: post) = c :: rest := by
  induction pre with
  | nil =>
    simp only [List.nil_append, sortCands]
    cases hs : sortCands post with
    | nil => exact ⟨[], by simp [insertDesc]⟩
    | cons d ds =>
      have hd : d ∈ post := by
        have : d ∈ sortCands post := by simp [hs]
        exact (mem_sortCands d post).1 this
      exact ⟨d :: ds, insertDesc_cons_of_le c d ds (hpost d hd)⟩
  | cons p pre' ih =>
    have hp : p.score < c.score := hpre p (by simp)
    obtain ⟨rest, hrest⟩ := ih (fun e he => hpre e (by simp [he]))
    refine ⟨insertDesc p rest, ?_⟩
    have h2 : sortCands (p :: (pre' ++ c :: post)) = insertDesc p (sortCands (pre' ++ c :: post)) := rfl
    rw [List.cons_append, h2, hrest]
    exact insertDesc_cons_of_gt p c rest hp

/-- Descending order is preserved by insertion. -/
theorem insertDesc_pairwise (c : Cand) (l : List Cand)
    (h : l.Pairwise (fun a b => b.score ≤ a.score)) :
    (insertDesc c l).Pairwise (fun a b => b.score ≤ a.score) := by
  induction l with
  | nil => simp [insertDesc]
  | cons d ds ih =>
    rcases List.pairwise_cons.1 h with ⟨hd, hds⟩
    simp only [insertDesc]
    split
    · rename_i hle
      refine List.pairwise_cons.2 ⟨?_, h⟩
      intro e he
      rcases List.mem_cons.1 he with rfl | he'
      · exact hle
      · exact le_trans (hd e he') hle
    · rename_i hgt
      refine List.pairwise_cons.2 ⟨?_, ih hds⟩
      intro e he
      rcases (mem_insertDesc e c ds).1 he with rfl | he'
      · omega
      · exact hd e he'

theorem sortCands_pairwise (l : List Cand) :
    (sortCands l).Pairwise (fun a b => b.score ≤ a.score) := by
  induction l with
  | nil => simp [sortCands]
  | cons c cs ih => exact insertDesc_pairwise c (sortCands cs) ih

/-- The head of the sorted list scores at least every list element. -/
theorem sortCands_head_max (l : List Cand) (c : Cand) (rest : List Cand)
    (h : sortCands l = c :: rest) : ∀ e ∈ l, e.score ≤ c.score := by
  intro e he
  have hmem : e ∈ sortCands l := (mem_sortCands e l).2 he
  rw [h] at hmem
  rcases List.mem_cons.1 hmem with rfl | hrest
  · exact le_refl _
  · have hp := sortCands_pairwise l
    rw [h] at hp
    exact (List.pairwise_cons.1 hp).1 e hrest

/-- Stability: the sort never re-orders candidates of equal score. -/
theorem filter_insertDesc (c : Cand) (l : List Cand) (k : Nat) :
    (insertDesc c l).filter (fun e => e.score == k) =
      (if c.score = k then [c] else []) ++ l.filter (fun e => e.score == k) := by
  induction l with
  | nil =>
    by_cases hc : c.score = k <;> simp [insertDesc, List.filter_cons, beq_iff_eq, hc]
  | cons d ds ih =>
    simp only [insertDesc]
    split
    · rename_i hle
      by_cases hc : c.score = k <;> by_cases hd : d.score = k <;>
        simp [List.filter_cons, beq_iff_eq, hc, hd]
    · rename_i hgt
      by_cases hd : d.score = k
      · by_cases hc : c.score = k
        · omega
        · simp only [List.filter_cons, beq_iff_eq] at ih ⊢
          simp [hd, hc] at ih ⊢
          exact ih
      · by_cases hc : c.score = k <;>
          · simp only [List.filter_cons, beq_iff_eq] at ih ⊢
            simp [hd, hc] at ih ⊢
            exact ih

theorem sortCands_stable (l : List Cand) (k : Nat) :
    (sortCands l).filter (fun e => e.score == k) = l.filter (fun e => e.score == k) := by
  induction l with
  | nil => simp [sortCands]
  | cons c cs ih =>
    have h2 : sortCands (c :: cs) = insertDesc c (sortCands cs) := rfl
    rw [h2, filter_insertDesc, ih]
    by_cases hc : c.score = k <;> simp [List.filter_cons, beq_iff_eq, hc]

/-! ### Facts collected along the walk -/

mutual

theorem walkFacts : ∀ (v : JsonValue) (pre : List String), ∀ c ∈ walk v pre,
    (c.score = countNl c.text * 10 + (if hasCodeToken c.text then 20 else 0)) ∧
      10 ≤ c.text.length ∧ (∃ o, c.text = pyStrip o)
  | .obj es, pre => walkObjFacts es pre
  | .arr vs, pre => walkArrFacts vs 0 pre
  | .str o, pre => by
    intro c hc
    by_cases h : (pyStrip o).length < 10 <;> simp [walk, h] at hc
    subst hc
    exact ⟨rfl, by show 10 ≤ (pyStrip o).length; omega, o, rfl⟩
  | .null, pre => by intro c hc; simp [walk] at hc
  | .bool b, pre => by intro c hc; simp [walk] at hc
  | .num n, pre => by intro c hc; simp [walk] at hc

theorem walkObjFacts : ∀ (es : JsonObj) (pre : List String), ∀ c ∈ walkObj es pre,
    (c.score = countNl c.text * 10 + (if hasCodeToken c.text then 20 else 0)) ∧
      10 ≤ c.text.length ∧ (∃ o, c.text = pyStrip o)
  | .nil, pre => by intro c hc; simp [walkObj] at hc
  | .cons k v rest, pre => by
    intro c hc
    rw [walkObj] at hc
    rcases List.mem_append.1 hc with h | h
    · exact walkFacts v (pre ++ [k]) c h
    · exact walkObjFacts rest pre c h

theorem walkArrFacts : ∀ (vs : JsonArr) (i : Nat) (pre : List String), ∀ c ∈ walkArrFrom vs i pre,
    (c.score = countNl c.text * 10 + (if hasCodeToken c.text then 20 else 0)) ∧
      10 ≤ c.text.length ∧ (∃ o, c.text = pyStrip o)
  | .nil, i, pre => by intro c hc; simp [walkArrFrom] at hc
  | .cons v rest, i, pre => by
    intro c hc
    rw [walkArrFrom] at hc
    rcases List.mem_append.1 hc with h | h
    · exact walkFacts v (pre ++ [indexTok i]) c h
    · exact walkArrFacts rest (i + 1) pre c h

end

mutual

theorem walkEmpty : ∀ (v : JsonValue) (pre : List String),
    walk v pre = [] ↔ hasQualLeaf v = false
  | .obj es, pre => walkObjEmpty es pre
  | .arr vs, pre => walkArrEmpty vs 0 pre
  | .str o, pre => by
    by_cases h : (pyStrip o).length < 10 <;> simp [walk, hasQualLeaf, h]
  | .null, pre => by simp [walk, hasQualLeaf]
  | .bool b, pre => by simp [walk, hasQualLeaf]
  | .num n, pre => by simp [walk, hasQualLeaf]

theorem walkObjEmpty : ∀ (es : JsonObj) (pre : List String),
    walkObj es pre = [] ↔ hasQualObj es = false
  | .nil, pre => by simp [walkObj, hasQualObj]
  | .cons k v rest, pre => by
    rw [walkObj, hasQualObj, List.append_eq_nil, walkEmpty v (pre ++ [k]),
      walkObjEmpty rest pre, Bool.or_eq_false_iff]

theorem walkArrEmpty : ∀ (vs : JsonArr) (i : Nat) (pre : List String),
    walkArrFrom vs i pre = [] ↔ hasQualArr vs = false
  | .nil, i, pre => by simp [walkArrFrom, hasQualArr]
  | .cons v rest, i, pre => by
    rw [walkArrFrom, hasQualArr, List.append_eq_nil, walkEmpty v (pre ++ [indexTok i]),
      walkArrEmpty rest (i + 1) pre, Bool.or_eq_false_iff]

end

/-! ### Claim theorems: the extractor -/

/-- C1: every surviving string leaf is scored `10 × (newlines in the trimmed
text) + 20` when the trimmed text matches the recognition set and `+ 0`
otherwise; `extract` returns the trimmed text of a candidate of maximal
score; and with exactly two qualifying leaves of equal token status, the one
with more newlines is returned regardless of its position. -/
theorem extractor_score_newline_priority :
    (∀ (obj : JsonValue) (c : Cand), c ∈ candidates obj →
      c.score = countNl c.text * 10 + (if hasCodeToken c.text then 20 else 0)) ∧
    (∀ (obj : JsonValue) (code p : String),
      extract_code_from_json obj = (some code, some p) →
      ∃ c ∈ candidates obj, code = c.text ∧ ∀ e ∈ candidates obj, e.score ≤ c.score) ∧
    (∀ (obj : JsonValue) (c1 c2 : Cand), candidates obj = [c1, c2] →
      hasCodeToken c1.text = hasCodeToken c2.text →
      (countNl c1.text < countNl c2.text →
        extract_code_from_json obj = (some c2.text, some (joinWith "." c2.path))) ∧
      (countNl c2.text < countNl c1.text →
        extract_code_from_json obj = (some c1.text, some (joinWith "." c1.path)))) := by
  refine ⟨fun obj c hc => (walkFacts obj [] c hc).1, ?_, ?_⟩
  · intro obj code p h
    rw [extract_code_from_json] at h
    cases hs : sortCands (walk obj []) with
    | nil => rw [hs] at h; simp at h
    | cons c rest =>
      rw [hs] at h
      simp only [Prod.mk.injEq, Option.some.injEq] at h
      refine ⟨c, (mem_sortCands c (walk obj [])).1 (by simp [hs]), h.1.symm, ?_⟩
      exact sortCands_head_max (walk obj []) c rest hs
  · intro obj c1 c2 hc htok
    have hw : walk obj [] = [c1, c2] := hc
    have h1 := (walkFacts obj [] c1 (by simp [candidates, hw])).1
    have h2 := (walkFacts obj [] c2 (by simp [candidates, hw])).1
    constructor
    · intro hlt
      have hscore : c1.score < c2.score := by
        rw [h1, h2, htok]
        split <;> omega
      have hsort : sortCands [c1, c2] = [c2, c1] := by
        have e1 : sortCands [c1, c2] = insertDesc c1 (insertDesc c2 []) := rfl
        rw [e1, show insertDesc c2 [] = [c2] from rfl, insertDesc_cons_of_gt c1 c2 [] hscore]
        rfl
      rw [extract_code_from_json, hw, hsort]
    · intro hlt
      have hscore : c2.score ≤ c1.score := by
        rw [h1, h2, htok]
        split <;> omega
      have hsort : sortCands [c1, c2] = [c1, c2] := by
        have e1 : sortCands [c1, c2] = insertDesc c1 (insertDesc c2 []) := rfl
        rw [e1, show insertDesc c2 [] = [c2] from rfl, insertDesc_cons_of_le c1 c2 [] hscore]
      rw [extract_code_from_json, hw, hsort]

/-- Witness for C1 at `exTwoLeaves`: the two-newline leaf under `"b"` wins
although the zero-newline leaf under `"a"` comes first. -/
theorem extractor_score_newline_priority_witness :
    extract_code_from_json exTwoLeaves = (some "bb\nbbbb\nbbb", some "b") := by
  have h := ((extractor_score_newline_priority.2.2 exTwoLeaves
    ⟨0, "aaaaaaaaaaa", ["a"]⟩ ⟨20, "bb\nbbbb\nbbb", ["b"]⟩ rfl (by decide)).1 (by decide))
  exact h

/-- C2: `extract` returns the earliest candidate of maximal score in the
depth-first pre-order candidate list, and the sort never re-orders
candidates of equal score. -/
theorem extractor_tie_break_stable :
    (∀ (obj : JsonValue) (pre post : List Cand) (c : Cand),
      candidates obj = pre ++ c :: post →
      (∀ e ∈ pre, e.score < c.score) →
      (∀ e ∈ post, e.score ≤ c.score) →
      extract_code_from_json obj = (some c.text, some (joinWith "." c.path))) ∧
    (∀ (l : List Cand) (k : Nat),
      (sortCands l).filter (fun e => e.score == k) = l.filter (fun e => e.score == k)) := by
  refine ⟨?_, sortCands_stable⟩
  intro obj pre post c hc hpre hpost
  have hw : walk obj [] = pre ++ c :: post := hc
  obtain ⟨rest, hsort⟩ := sortCands_head_first_max pre c post hpre hpost
  rw [extract_code_from_json, hw, hsort]

/-- Witness for C2 at `exTieLeaves`: both leaves score 0; the first one
encountered is returned. -/
theorem extractor_tie_break_stable_witness :
    extract_code_from_json exTieLeaves = (some "xxxxxxxxxxx", some "a") := by
  have h := extractor_tie_break_stable.1 exTieLeaves []
    [⟨0, "yyyyyyyyyyy", ["b"]⟩] ⟨0, "xxxxxxxxxxx", ["a"]⟩ rfl
    (by intro e he; simp at he) (by decide)
  exact h

/-- C3: `extract` returns `(none, none)` exactly when no string leaf strips
to at least 10 characters, and every candidate's text has length at least
10 (shorter leaves are discarded). -/
theorem extractor_none_iff_no_qualifying_leaf :
    (∀ obj : JsonValue,
      extract_code_from_json obj = (none, none) ↔ hasQualLeaf obj = false) ∧
    (∀ (obj : JsonValue) (c : Cand), c ∈ candidates obj → 10 ≤ c.text.length) := by
  refine ⟨?_, fun obj c hc => (walkFacts obj [] c hc).2.1⟩
  intro obj
  rw [← walkEmpty obj [], ← sortCands_eq_nil]
  rw [extract_code_from_json]
  cases hs : sortCands (walk obj []) with
  | nil => simp
  | cons c rest => simp

/-- Witness for C3 at `exNoQual` (no qualifying leaf) and a length check on
a concrete candidate of `exTwoLeaves`. -/
theorem extractor_none_iff_no_qualifying_leaf_witness :
    extract_code_from_json exNoQual = (none, none) ∧ 10 ≤ ("aaaaaaaaaaa" : String).length := by
  constructor
  · exact (extractor_none_iff_no_qualifying_leaf.1 exNoQual).mpr rfl
  · exact extractor_none_iff_no_qualifying_leaf.2 exTwoLeaves ⟨0, "aaaaaaaaaaa", ["a"]⟩ (by decide)

/-- C4 counterexample: the path of the qualifying leaf inside the sequence
under `"data"` renders as `"data.[0]"` — a dot precedes the bracket token —
not as the adjacent `"data[0]"` the claim describes. -/
theorem path_rendering_counterexample :
    (extract_code_from_json exData).2 = some "data.[0]" ∧
      (extract_code_from_json exData).2 ≠ some "data[0]" := by
  constructor
  · rfl
  · intro h
    rw [show (extract_code_from_json exData).2 = some "data.[0]" from rfl] at h
    simp at h

/-- C4 amended: the rendered path of the winning candidate is its token list
joined with `"."` uniformly — mapping keys as themselves, sequence indices
as atomic `[i]` tokens — so an index token is separated from the preceding
token by a dot (`"data.[0]"`), while pure key paths render as in
`"result.answer"`. -/
theorem path_rendering_amended :
    (∀ (obj : JsonValue) (code p : String),
      extract_code_from_json obj = (some code, some p) →
      ∃ c ∈ candidates obj, code = c.text ∧ p = joinWith "." c.path) ∧
    joinWith "." ["result", "answer"] = "result.answer" ∧
    joinWith "." ["data", indexTok 0] = "data.[0]" := by
  refine ⟨?_, rfl, rfl⟩
  intro obj code p h
  rw [extract_code_from_json] at h
  cases hs : sortCands (walk obj []) with
  | nil => rw [hs] at h; simp at h
  | cons c rest =>
    rw [hs] at h
    simp only [Prod.mk.injEq, Option.some.injEq] at h
    exact ⟨c, (mem_sortCands c (walk obj [])).1 (by simp [hs]), h.1.symm, h.2.symm⟩

/-- Witness for the amended C4 at `exResult`. -/
theorem path_rendering_amended_witness :
    ∃ c ∈ candidates exResult,
      "def f(x):\n    return x+1" = c.text ∧ "result.answer" = joinWith "." c.path :=
  path_rendering_amended.1 exResult "def f(x):\n    return x+1" "result.answer" rfl

/-! ### Helper lemmas on the common-field loop -/

theorem primStrings_eq_filterMap : ∀ vs : JsonArr,
    primStrings vs = (arrToList vs).filterMap primText
  | .nil => rfl
  | .cons v rest => by
    cases v <;>
      simp [primStrings, arrToList, List.filterMap_cons, primText,
        primStrings_eq_filterMap rest]

theorem findCommon_code (pes : JsonObj) (v : JsonValue)
    (h : lookupVal pes "code" = some v) (ht : pyTruthy v = true) :
    findCommon pes = some ("code", v) := by
  simp [findCommon, commonFields, List.findSome?, h, ht]

theorem findCommon_source (pes : JsonObj) (v : JsonValue)
    (hc : ∀ w, lookupVal pes "code" = some w → pyTruthy w = false)
    (h : lookupVal pes "source" = some v) (ht : pyTruthy v = true) :
    findCommon pes = some ("source", v) := by
  cases hcode : lookupVal pes "code" with
  | none => simp [findCommon, commonFields, List.findSome?, hcode, h, ht]
  | some w => simp [findCommon, commonFields, List.findSome?, hcode, hc w hcode, h, ht]

theorem findCommon_snippet (pes : JsonObj) (v : JsonValue)
    (hc : ∀ w, lookupVal pes "code" = some w → pyTruthy w = false)
    (hs : ∀ w, lookupVal pes "source" = some w → pyTruthy w = false)
    (h : lookupVal pes "snippet" = some v) (ht : pyTruthy v = true) :
    findCommon pes = some ("snippet", v) := by
  cases hcode : lookupVal pes "code" with
  | none =>
    cases hsrc : lookupVal pes "source" with
    | none => simp [findCommon, commonFields, List.findSome?, hcode, hsrc, h, ht]
    | some w => simp [findCommon, commonFields, List.findSome?, hcode, hsrc, hs w hsrc, h, ht]
  | some w =>
    cases hsrc : lookupVal pes "source" with
    | none => simp [findCommon, commonFields, List.findSome?, hcode, hc w hcode, hsrc, h, ht]
    | some w2 =>
      simp [findCommon, commonFields, List.findSome?, hcode, hc w hcode, hsrc, hs w2 hsrc, h, ht]

theorem findCommon_textKey (pes : JsonObj) (v : JsonValue)
    (hc : ∀ w, lookupVal pes "code" = some w → pyTruthy w = false)
    (hs : ∀ w, lookupVal pes "source" = some w → pyTruthy w = false)
    (hn : ∀ w, lookupVal pes "snippet" = some w → pyTruthy w = false)
    (h : lookupVal pes "text" = some v) (ht : pyTruthy v = true) :
    findCommon pes = some ("text", v) := by
  have step : ∀ (key : String) (rest : List String),
      (∀ w, lookupVal pes key = some w → pyTruthy w = false) →
      (List.findSome? (fun k =>
        match lookupVal pes k with
        | some v => if pyTruthy v then some (k, v) else none
        | none => none) (key :: rest)) =
      (List.findSome? (fun k =>
        match lookupVal pes k with
        | some v => if pyTruthy v then some (k, v) else none
        | none => none) rest) := by
    intro key rest hfalse
    cases hk : lookupVal pes key with
    | none => simp [List.findSome?, hk]
    | some w => simp [List.findSome?, hk, hfalse w hk]
  rw [findCommon, commonFields]
  rw [step "code" _ hc, step "source" _ hs, step "snippet" _ hn]
  simp [List.findSome?, h, ht]

theorem findCommon_none (pes : JsonObj)
    (hall : ∀ k, k ∈ commonFields → ∀ w, lookupVal pes k = some w → pyTruthy w = false) :
    findCommon pes = none := by
  have step : ∀ (key : String) (rest : List String),
      (∀ w, lookupVal pes key = some w → pyTruthy w = false) →
      (List.findSome? (fun k =>
        match lookupVal pes k with
        | some v => if pyTruthy v then some (k, v) else none
        | none => none) (key :: rest)) =
      (List.findSome? (fun k =>
        match lookupVal pes k with
        | some v => if pyTruthy v then some (k, v) else none
        | none => none) rest) := by
    intro key rest hfalse
    cases hk : lookupVal pes key with
    | none => simp [List.findSome?, hk]
    | some w => simp [List.findSome?, hk, hfalse w hk]
  rw [findCommon, commonFields]
  rw [step "code" _ (hall "code" (by simp [commonFields])),
    step "source" _ (hall "source" (by simp [commonFields])),
    step "snippet" _ (hall "snippet" (by simp [commonFields])),
    step "text" _ (hall "text" (by simp [commonFields]))]
  rfl

/-- Inversion: a success response always carries `previewOf` of its resolved
code string. -/
theorem route_ok_preview (body? : Option JsonValue) (up code pv lang : String)
    (h : explain_json_route body? = .ok up code pv lang) : pv = previewOf code := by
  unfold explain_json_route at h
  repeat' split at h
  all_goals
    first
      | exact RouteResult.noConfusion h
      | (injection h with h1 h2 h3 h4
         rw [← h3, h2])

/-! ### Claim theorems: the request handler -/

/-- C5: the three resolution strategies in strict priority order — a usable
explicit-path value wins even when `code` is present; otherwise the four
common fields are checked in their fixed order with the first truthy value
taken; the extractor runs only when both earlier strategies produced no
usable string. -/
theorem resolution_priority_order :
    (∀ (pes : JsonObj) (cp s : String) (v : JsonValue),
      pathResult (.obj pes) cp = some s → s ≠ "" →
      lookupVal pes "code" = some v → pyTruthy v = true →
      resolveAll (.obj pes) (some cp) = .ok (some (cp, s))) ∧
    (∀ (pes : JsonObj) (v : JsonValue),
      (lookupVal pes "code" = some v → pyTruthy v = true →
        findCommon pes = some ("code", v)) ∧
      ((∀ w, lookupVal pes "code" = some w → pyTruthy w = false) →
        lookupVal pes "source" = some v → pyTruthy v = true →
        findCommon pes = some ("source", v)) ∧
      ((∀ w, lookupVal pes "code" = some w → pyTruthy w = false) →
        (∀ w, lookupVal pes "source" = some w → pyTruthy w = false) →
        lookupVal pes "snippet" = some v → pyTruthy v = true →
        findCommon pes = some ("snippet", v)) ∧
      ((∀ w, lookupVal pes "code" = some w → pyTruthy w = false) →
        (∀ w, lookupVal pes "source" = some w → pyTruthy w = false) →
        (∀ w, lookupVal pes "snippet" = some w → pyTruthy w = false) →
        lookupVal pes "text" = some v → pyTruthy v = true →
        findCommon pes = some ("text", v))) ∧
    (∀ (payload : JsonValue) (cp? : Option String) (pes : JsonObj) (k s : String) (v : JsonValue),
      pathStage payload cp? = none → payload = .obj pes →
      findCommon pes = some (k, v) → normalize_code v = some s → s ≠ "" →
      resolveAll payload cp? = .ok (some (k, s))) ∧
    (∀ (payload : JsonValue) (cp? : Option String) (pes : JsonObj),
      pathStage payload cp? = none → payload = .obj pes → commonStage pes = none →
      resolveAll payload cp? = .ok (autoStage payload)) := by
  refine ⟨?_, ?_, ?_, ?_⟩
  · intro pes cp s v hpath hs _hcode _htruthy
    simp only [resolveAll, pathStage, hpath]
    rw [if_neg hs]
  · intro pes v
    exact ⟨findCommon_code pes v, fun hc => findCommon_source pes v hc,
      fun hc hs => findCommon_snippet pes v hc hs,
      fun hc hs hn => findCommon_textKey pes v hc hs hn⟩
  · intro payload cp? pes k s v hpath hpay hfind hnorm hs
    subst hpay
    simp only [resolveAll, hpath, step2, commonStage, hfind, hnorm]
    rw [if_neg hs]
  · intro payload cp? pes hpath hpay hcommon
    subst hpay
    simp [resolveAll, hpath, step2, hcommon]

/-- Witness for C5: the explicit path beats a truthy `code` field; a falsy
`code` field yields to `source`; with no usable earlier strategy the
extractor's result is returned. -/
theorem resolution_priority_order_witness :
    resolveAll (.obj exPathWins) (some "a.b") = .ok (some ("a.b", "x = 1234567")) ∧
    findCommon exCommon = some ("source", .str "y = 42") ∧
    resolveAll (.obj exCommon) none = .ok (some ("source", "y = 42")) ∧
    resolveAll (.obj exAuto) none = .ok (autoStage (.obj exAuto)) := by
  refine ⟨?_, ?_, ?_, ?_⟩
  · exact resolution_priority_order.1 exPathWins "a.b" "x = 1234567" (.str "print(1)")
      rfl (by decide) rfl rfl
  · exact (resolution_priority_order.2.1 exCommon (.str "y = 42")).2.1
      (by intro w hw; cases Option.some.inj hw; rfl) rfl rfl
  · exact resolution_priority_order.2.2.1 (.obj exCommon) none exCommon "source" "y = 42"
      (.str "y = 42") rfl rfl
      ((resolution_priority_order.2.1 exCommon (.str "y = 42")).2.1
        (by intro w hw; cases Option.some.inj hw; rfl) rfl rfl) rfl (by decide)
  · exact resolution_priority_order.2.2.2 (.obj exAuto) none exAuto rfl rfl rfl

/-- C6: every failing explicit-path walk is recovered locally — resolution
proceeds exactly as if no path had been given — and with a valid `code`
field present the response is built from the `code` field value. -/
theorem path_failure_fallback :
    (∀ (payload : JsonValue) (cp : String),
      pathResult payload cp = none →
      resolveAll payload (some cp) = resolveAll payload none) ∧
    (∀ (bes pes : JsonObj) (cp : String) (v : JsonValue) (s : String),
      pyTruthy (.obj bes) = true →
      codePathOf bes = .ok (some cp) →
      payloadOf bes = .obj pes →
      pathResult (.obj pes) cp = none →
      lookupVal pes "code" = some v → pyTruthy v = true →
      normalize_code v = some s → s ≠ "" →
      explain_json_route (some (.obj bes)) = .ok "code" s (previewOf s) (languageOf bes)) := by
  constructor
  · intro payload cp h
    simp [resolveAll, pathStage, h]
  · intro bes pes cp v s hb hcp hpay hfail hcode htr hnorm hs
    simp only [explain_json_route]
    rw [if_pos hb]
    simp only [hcp, hpay]
    simp only [resolveAll, pathStage, hfail, step2, commonStage,
      findCommon_code pes v hcode htr, hnorm]
    rw [if_neg hs]

/-- Witness for C6 at `exFallback`: `code_path` `"data.[5]"` cannot be
walked on the payload, and the `code` field answers instead. -/
theorem path_failure_fallback_witness :
    explain_json_route (some (.obj exFallback)) =
      .ok "code" "print(hello)" "print(hello)" "unspecified" := by
  have h := path_failure_fallback.2 exFallback (.cons "code" (.str "print(hello)") .nil)
    "data.[5]" (.str "print(hello)") "print(hello)"
    (by decide) rfl rfl rfl rfl (by decide) rfl (by decide)
  exact h

/-- C7 counterexample: a sequence containing a boolean does NOT drop it —
Python's `bool` is an `int` subtype, so `isinstance(True, (str, int, float))`
holds and the element renders as `"True"`. -/
theorem normalize_bool_counterexample :
    normalize_code (.arr (.cons (.bool true) .nil)) = some "True" ∧
      some "True" ≠ (some "" : Option String) := by
  exact ⟨rfl, by simp⟩

/-- C7 amended: normalization keeps strings as-is, joins a sequence's
string, number AND boolean elements with newlines (booleans render as
`True` / `False`), treats null as failure, and coerces anything else to its
`str(...)` text. -/
theorem normalize_code_amended :
    normalize_code .null = none ∧
    (∀ s, normalize_code (.str s) = some s) ∧
    (∀ vs, normalize_code (.arr vs) =
      some (joinWith "\n" ((arrToList vs).filterMap primText))) ∧
    (∀ b, normalize_code (.bool b) = some (if b then "True" else "False")) ∧
    (∀ n, normalize_code (.num n) = some (intStr n)) ∧
    (∀ es, normalize_code (.obj es) = some (pyStr (.obj es))) := by
  refine ⟨rfl, fun s => rfl, ?_, fun b => ?_, fun n => rfl, fun es => rfl⟩
  · intro vs
    rw [← primStrings_eq_filterMap]
    rfl
  · cases b <;> rfl

/-- C8 counterexample: the empty mapping is a parseable mapping body, yet
`if not body` rejects it as an invalid request — no resolution is
attempted. -/
theorem empty_body_rejected_counterexample :
    explain_json_route (some (.obj .nil)) = .invalid ∧
      RouteResult.invalid ≠ RouteResult.noCode :=
  ⟨rfl, fun h => RouteResult.noConfusion h⟩

/-- C8 amended: the handler answers "Invalid request" exactly for an
unparseable body or a body parsing to a falsy value (the empty mapping
included); for a truthy mapping body with a well-typed `code_path` field the
"No code found" failure is surfaced — before any generation call — exactly
when all three resolution strategies yield no usable string. -/
theorem request_rejection_amended :
    (∀ body? : Option JsonValue,
      explain_json_route body? = .invalid ↔
        body? = none ∨ ∃ v, body? = some v ∧ pyTruthy v = false) ∧
    (∀ (bes : JsonObj) (cp? : Option String),
      pyTruthy (.obj bes) = true →
      codePathOf bes = .ok cp? →
      (explain_json_route (some (.obj bes)) = .noCode ↔
        resolveAll (payloadOf bes) cp? = .ok none)) := by
  constructor
  · intro body?
    cases body? with
    | none => simp [explain_json_route]
    | some body =>
      by_cases ht : pyTruthy body = true
      · simp only [explain_json_route]
        rw [if_pos ht]
        constructor
        · intro h
          exfalso
          revert h
          cases body <;> intro h <;>
            · repeat' split at h
              all_goals exact RouteResult.noConfusion h
        · intro h
          exfalso
          rcases h with h | ⟨v, hv, hfalse⟩
          · exact Option.noConfusion h
          · cases Option.some.inj hv
            rw [ht] at hfalse
            exact Bool.noConfusion hfalse
      · simp only [explain_json_route]
        rw [if_neg ht]
        simp only [Bool.not_eq_true] at ht
        simp [ht]
  · intro bes cp? hb hcp
    simp only [explain_json_route]
    rw [if_pos hb]
    simp only [hcp]
    cases hres : resolveAll (payloadOf bes) cp? with
    | error e => constructor <;> (intro h; first | exact RouteResult.noConfusion h | exact Except.noConfusion h)
    | ok r =>
      match r with
      | none => simp
      | some (up, code) =>
        constructor
        · intro h; exact RouteResult.noConfusion h
        · intro h
          have := Except.ok.inj h
          exact Option.noConfusion this

/-- Witness for the amended C8 at `exPlain` (a truthy mapping body none of
whose strategies finds code). -/
theorem request_rejection_amended_witness :
    explain_json_route (some (.obj exPlain)) = .noCode ↔
      resolveAll (payloadOf exPlain) none = .ok none :=
  request_rejection_amended.2 exPlain none (by decide) rfl

/-- C9: every success response previews the resolved code exactly: unchanged
when its length is at most 2000 characters, else its first 2000 characters
followed by the truncation marker; in particular a 2500-character string is
cut to 2000 plus the marker and a 500-character string passes unchanged. -/
theorem preview_truncation :
    (∀ (body? : Option JsonValue) (up code pv lang : String),
      explain_json_route body? = .ok up code pv lang →
      pv = previewOf code ∧
      (code.length ≤ 2000 → pv = code) ∧
      (2000 < code.length → pv = pyTake code 2000 ++ "\n... (truncated)")) ∧
    (repChar 2500).length = 2500 ∧
    previewOf (repChar 2500) = pyTake (repChar 2500) 2000 ++ "\n... (truncated)" ∧
    (pyTake (repChar 2500) 2000).length = 2000 ∧
    (repChar 500).length = 500 ∧
    previewOf (repChar 500) = repChar 500 := by
  have hlen : ∀ n : Nat, (repChar n).length = n := by
    intro n
    show (List.replicate n 'x').length = n
    rw [List.length_replicate]
  refine ⟨?_, hlen 2500, ?_, ?_, hlen 500, ?_⟩
  · intro body? up code pv lang h
    have hpv := route_ok_preview body? up code pv lang h
    refine ⟨hpv, fun hle => ?_, fun hgt => ?_⟩
    · rw [hpv, previewOf, if_pos hle]
    · rw [hpv, previewOf, if_neg (by omega)]
  · rw [previewOf, if_neg (by rw [hlen]; omega)]
  · show ((List.replicate 2500 'x').take 2000).length = 2000
    rw [List.take_replicate, List.length_replicate]
    omega
  · rw [previewOf, if_pos (by rw [hlen]; omega)]

/-- Witness for C9: a body whose `code` field holds 2500 characters produces
the truncated preview. -/
theorem preview_truncation_witness :
    previewOf (repChar 2500) = pyTake (repChar 2500) 2000 ++ "\n... (truncated)" := by
  have h := (preview_truncation.1 (some (.obj exLongBody)) "code" (repChar 2500)
    (previewOf (repChar 2500)) "unspecified" rfl).2.2
  exact h (by show 2000 < (List.replicate 2500 'x').length; rw [List.length_replicate]; omega)

/-! ### Digits, `int(...)` and the `[i]` token -/

theorem decChars_facts : ∀ c ∈ decChars,
    c.isDigit = true ∧ pyWs c = false ∧ c ≠ '.' ∧ c ≠ '-' ∧ c ≠ '+' := by decide

theorem digitChar_facts : ∀ m, m < 10 →
    Nat.digitChar m ∈ decChars ∧ digitVal (Nat.digitChar m) = m := by decide

theorem natDigitsAux_mem (fuel : Nat) : ∀ n, n < fuel →
    ∀ c ∈ natDigitsAux fuel n, c ∈ decChars := by
  induction fuel with
  | zero => intro n hn; omega
  | succ fuel ih =>
    intro n _hn c hc
    rw [natDigitsAux] at hc
    by_cases h : n < 10
    · rw [if_pos h] at hc
      simp at hc
      subst hc
      exact (digitChar_facts n h).1
    · rw [if_neg h] at hc
      have hdiv : n / 10 < fuel := by
        have := Nat.div_lt_self (show 0 < n by omega) (show 1 < 10 by omega)
        omega
      rcases List.mem_append.1 hc with h1 | h1
      · exact ih (n / 10) hdiv c h1
      · simp at h1
        subst h1
        exact (digitChar_facts (n % 10) (Nat.mod_lt n (by omega))).1

theorem natDigitsAux_ne_nil (fuel n : Nat) (h : n < fuel) : natDigitsAux fuel n ≠ [] := by
  cases fuel with
  | zero => omega
  | succ fuel =>
    rw [natDigitsAux]
    by_cases h10 : n < 10
    · rw [if_pos h10]; simp
    · rw [if_neg h10]; simp

theorem natDigitsAux_foldl (fuel : Nat) : ∀ n, n < fuel → ∀ a : Nat,
    (natDigitsAux fuel n).foldl (fun a c => a * 10 + digitVal c) a =
      a * 10 ^ (natDigitsAux fuel n).length + n := by
  induction fuel with
  | zero => intro n hn; omega
  | succ fuel ih =>
    intro n _hn a
    rw [natDigitsAux]
    by_cases h : n < 10
    · rw [if_pos h]
      simp [List.foldl, (digitChar_facts n h).2]
    · rw [if_neg h]
      have hdiv : n / 10 < fuel := by
        have := Nat.div_lt_self (show 0 < n by omega) (show 1 < 10 by omega)
        omega
      rw [List.foldl_append, ih (n / 10) hdiv a]
      simp only [List.foldl, (digitChar_facts (n % 10) (Nat.mod_lt n (by omega))).2,
        List.length_append, List.length_cons, List.length_nil]
      have hm : n / 10 * 10 + n % 10 = n := by omega
      calc (a * 10 ^ (natDigitsAux fuel (n / 10)).length + n / 10) * 10 + n % 10
          = a * (10 ^ (natDigitsAux fuel (n / 10)).length * 10) + (n / 10 * 10 + n % 10) := by
            ring
        _ = a * 10 ^ ((natDigitsAux fuel (n / 10)).length + (0 + 1)) + n := by
            rw [hm, pow_succ]

theorem natDigits_mem (n : Nat) : ∀ c ∈ natDigits n, c ∈ decChars :=
  natDigitsAux_mem (n + 1) n (by omega)

theorem natDigits_ne_nil (n : Nat) : natDigits n ≠ [] :=
  natDigitsAux_ne_nil (n + 1) n (by omega)

theorem charsToNat_natDigits (n : Nat) : charsToNat? (natDigits n) = some n := by
  rw [charsToNat?]
  rw [if_neg (by simp [List.isEmpty_iff, natDigits_ne_nil n])]
  rw [if_pos (by
    rw [List.all_eq_true]
    intro c hc
    exact (decChars_facts c (natDigits_mem n c hc)).1)]
  rw [show (natDigits n).foldl (fun a c => a * 10 + digitVal c) 0 =
      0 * 10 ^ (natDigits n).length + n from natDigitsAux_foldl (n + 1) n (by omega) 0]
  simp

theorem dropWhile_eq_self_of_all (cs : List Char) (h : ∀ c ∈ cs, pyWs c = false) :
    cs.dropWhile pyWs = cs := by
  cases cs with
  | nil => rfl
  | cons c rest =>
    rw [List.dropWhile_cons, if_neg (by simp [h c (by simp)])]

theorem stripWsChars_id (cs : List Char) (h : ∀ c ∈ cs, pyWs c = false) :
    stripWsChars cs = cs := by
  rw [stripWsChars, dropWhile_eq_self_of_all cs h,
    dropWhile_eq_self_of_all cs.reverse (by intro c hc; exact h c (List.mem_reverse.1 hc)),
    List.reverse_reverse]

theorem pyInt_natDigits (n : Nat) : pyInt ⟨natDigits n⟩ = some (n : Int) := by
  have hmem := natDigits_mem n
  have hstrip : stripWsChars (natDigits n) = natDigits n :=
    stripWsChars_id _ (fun c hc => (decChars_facts c (hmem c hc)).2.1)
  rw [pyInt]
  rw [show (⟨natDigits n⟩ : String).data = natDigits n from rfl, hstrip]
  cases hnd : natDigits n with
  | nil => exact absurd hnd (natDigits_ne_nil n)
  | cons c rest =>
    have hc : c ∈ decChars := hmem c (by rw [hnd]; simp)
    have h1 : ¬(c = '-') := (decChars_facts c hc).2.2.2.1
    have h2 : ¬(c = '+') := (decChars_facts c hc).2.2.2.2
    simp only [h1, h2, if_false]
    rw [← hnd, charsToNat_natDigits n]
    rfl

theorem str_data_append (a b : String) : (a ++ b).data = a.data ++ b.data := rfl

theorem indexTok_data (j : Nat) : (indexTok j).data = '[' :: (natDigits j ++ [']']) := by
  rw [indexTok, str_data_append, str_data_append]
  rfl

theorem indexTok_no_dot (j : Nat) : ('.' : Char) ∉ (indexTok j).data := by
  rw [indexTok_data]
  intro h
  rcases List.mem_cons.1 h with h1 | h1
  · exact absurd h1 (by decide)
  · rcases List.mem_append.1 h1 with h2 | h2
    · exact absurd rfl ((decChars_facts '.' (natDigits_mem j '.' h2)).2.2.1)
    · simp at h2

theorem indexTok_bracket (j : Nat) :
    (pyStartsWith (indexTok j) "[" && pyEndsWith (indexTok j) "]") = true := by
  rw [Bool.and_eq_true]
  constructor
  · rw [pyStartsWith, indexTok_data]
    simp [List.isPrefixOf]
  · rw [pyEndsWith, indexTok_data]
    rw [List.isSuffixOf]
    rw [show ('[' :: (natDigits j ++ [']'])).reverse = ']' :: (natDigits j).reverse ++ ['['] by
      simp]
    simp [List.isPrefixOf]

theorem sliceInner_indexTok (j : Nat) : sliceInner (indexTok j) = ⟨natDigits j⟩ := by
  rw [sliceInner]
  rw [indexTok_data]
  simp

/-! ### Splitting is a left inverse of joining on dot-free tokens -/

theorem splitChars_no_dot : ∀ g : List Char, ('.' : Char) ∉ g → splitChars g = [g]
  | [], _ => rfl
  | c :: g, h => by
    rw [splitChars]
    rw [if_neg (by intro hc; exact h (by simp [hc]))]
    rw [splitChars_no_dot g (fun hg => h (by simp [hg]))]

theorem splitChars_append : ∀ (g rest : List Char), ('.' : Char) ∉ g →
    splitChars (g ++ '.' :: rest) = g :: splitChars rest
  | [], rest, _ => by
    rw [List.nil_append, splitChars, if_pos rfl]
  | c :: g, rest, h => by
    rw [List.cons_append, splitChars]
    rw [if_neg (by intro hc; exact h (by simp [hc]))]
    rw [splitChars_append g rest (fun hg => h (by simp [hg]))]

theorem splitDot_joinWith : ∀ ts : List String, ts ≠ [] →
    (∀ t ∈ ts, ('.' : Char) ∉ t.data) → splitDot (joinWith "." ts) = ts
  | [], hne, _ => absurd rfl hne
  | [t], _, hdot => by
    rw [show joinWith "." [t] = t from rfl]
    rw [splitDot, splitChars_no_dot t.data (hdot t (by simp))]
    rfl
  | t :: t2 :: ts2, _, hdot => by
    rw [show joinWith "." (t :: t2 :: ts2) = t ++ "." ++ joinWith "." (t2 :: ts2) from rfl]
    rw [splitDot]
    rw [show (t ++ "." ++ joinWith "." (t2 :: ts2)).data
        = t.data ++ '.' :: (joinWith "." (t2 :: ts2)).data from by
      rw [str_data_append, str_data_append]
      simp]
    rw [splitChars_append _ _ (hdot t (by simp))]
    rw [List.map_cons]
    rw [show (List.map (fun g => (⟨g⟩ : String)) (splitChars (joinWith "." (t2 :: ts2)).data))
        = splitDot (joinWith "." (t2 :: ts2)) from rfl]
    rw [splitDot_joinWith (t2 :: ts2) (by simp) (fun u hu => hdot u (by simp [hu]))]

/-! ### Walk-step lemmas for the round trip -/

theorem goodKey_no_dot (k : String) (h : goodKeyB k = true) : ('.' : Char) ∉ k.data := by
  rw [goodKeyB, Bool.and_eq_true] at h
  exact of_decide_eq_true h.1

theorem goodKey_not_bracket (k : String) (h : goodKeyB k = true) :
    (pyStartsWith k "[" && pyEndsWith k "]") = false := by
  rw [goodKeyB, Bool.and_eq_true] at h
  have := h.2
  cases hb : (pyStartsWith k "[" && pyEndsWith k "]") with
  | false => rfl
  | true => rw [hb] at this; exact absurd this (by decide)

theorem walkStep_key (es : JsonObj) (k : String) (v : JsonValue)
    (hgood : goodKeyB k = true) (hlook : lookupVal es k = some v) :
    walkStep (.obj es) k = some v := by
  rw [walkStep]
  rw [if_neg (by rw [goodKey_not_bracket k hgood]; exact Bool.false_ne_true)]
  rw [hlook]
  rfl

theorem idxArr_natCast (vs : JsonArr) (j : Nat) : idxArr vs (j : Int) = jget? vs j := by
  rw [idxArr, if_pos (by omega)]
  simp

theorem walkStep_arr_index (vs : JsonArr) (j : Nat) :
    walkStep (.arr vs) (indexTok j) = jget? vs j := by
  rw [show walkStep (.arr vs) (indexTok j) =
      (if (pyStartsWith (indexTok j) "[" && pyEndsWith (indexTok j) "]") = true then
        match pyInt (sliceInner (indexTok j)) with
        | none => none
        | some i => idxArr vs i
      else none) from rfl]
  rw [if_pos (indexTok_bracket j)]
  rw [sliceInner_indexTok, pyInt_natDigits]
  exact idxArr_natCast vs j

theorem walkParts_cons (v next : JsonValue) (p : String) (ps : List String)
    (h : walkStep v p = some next) : walkParts v (p :: ps) = walkParts next ps := by
  rw [walkParts, h]

/-! ### Soundness of collected paths: every candidate's token list resolves
back to its originating string leaf -/

mutual

theorem walkSound : ∀ (v : JsonValue) (pre : List String), wfKeys v = true →
    ∀ c ∈ walk v pre, ∃ ts, c.path = pre ++ ts ∧
      (∀ t ∈ ts, ('.' : Char) ∉ t.data) ∧
      ∃ o, walkParts v ts = some (.str o) ∧ pyStrip o = c.text
  | .obj es, pre, hwf => by
    intro c hc
    obtain ⟨k, ts, v', hlook, hgood, hpath, hclean, o, hwp, hstrip⟩ :=
      walkObjSound es pre hwf c hc
    refine ⟨k :: ts, hpath, hclean, o, ?_, hstrip⟩
    rw [walkParts_cons _ _ _ _ (walkStep_key es k v' hgood hlook)]
    exact hwp
  | .arr vs, pre, hwf => by
    intro c hc
    obtain ⟨j, ts, v', _hij, hget, hpath, hclean, o, hwp, hstrip⟩ :=
      walkArrSound vs 0 pre hwf c hc
    refine ⟨indexTok j :: ts, hpath, hclean, o, ?_, hstrip⟩
    have hget' : jget? vs j = some v' := by simpa using hget
    have hstep : walkStep (.arr vs) (indexTok j) = some v' := by
      rw [walkStep_arr_index vs j]
      exact hget'
    rw [walkParts_cons _ _ _ _ hstep]
    exact hwp
  | .str o, pre, _hwf => by
    intro c hc
    by_cases h : (pyStrip o).length < 10 <;> simp [walk, h] at hc
    subst hc
    exact ⟨[], by simp, by simp, o, rfl, rfl⟩
  | .null, pre, _hwf => by intro c hc; simp [walk] at hc
  | .bool b, pre, _hwf => by intro c hc; simp [walk] at hc
  | .num n, pre, _hwf => by intro c hc; simp [walk] at hc

theorem walkObjSound : ∀ (es : JsonObj) (pre : List String), wfObj es = true →
    ∀ c ∈ walkObj es pre, ∃ k ts v', lookupVal es k = some v' ∧ goodKeyB k = true ∧
      c.path = pre ++ k :: ts ∧ (∀ t ∈ k :: ts, ('.' : Char) ∉ t.data) ∧
      ∃ o, walkParts v' ts = some (.str o) ∧ pyStrip o = c.text
  | .nil, pre, _hwf => by intro c hc; simp [walkObj] at hc
  | .cons k v rest, pre, hwf => by
    intro c hc
    rw [wfObj] at hwf
    simp only [Bool.and_eq_true] at hwf
    obtain ⟨⟨⟨hgood, hnk⟩, hwfv⟩, hwfrest⟩ := hwf
    rw [walkObj] at hc
    rcases List.mem_append.1 hc with h | h
    · obtain ⟨ts, hpath, hclean, o, hwp, hstrip⟩ := walkSound v (pre ++ [k]) hwfv c h
      refine ⟨k, ts, v, ?_, hgood, ?_, ?_, o, hwp, hstrip⟩
      · rw [lookupVal, if_pos rfl]
      · rw [hpath, List.append_assoc]
        rfl
      · intro t ht
        rcases List.mem_cons.1 ht with rfl | ht'
        · exact goodKey_no_dot t hgood
        · exact hclean t ht'
    · obtain ⟨k', ts, v', hlook, hgood', hpath, hclean, o, hwp, hstrip⟩ :=
        walkObjSound rest pre hwfrest c h
      refine ⟨k', ts, v', ?_, hgood', hpath, hclean, o, hwp, hstrip⟩
      have hne : ¬(k = k') := by
        intro he
        rw [Bool.not_eq_true'] at hnk
        rw [hasKey, he, hlook] at hnk
        simp at hnk
      rw [lookupVal, if_neg hne]
      exact hlook

theorem walkArrSound : ∀ (vs : JsonArr) (i0 : Nat) (pre : List String), wfArr vs = true →
    ∀ c ∈ walkArrFrom vs i0 pre, ∃ j ts v', i0 ≤ j ∧ jget? vs (j - i0) = some v' ∧
      c.path = pre ++ indexTok j :: ts ∧ (∀ t ∈ indexTok j :: ts, ('.' : Char) ∉ t.data) ∧
      ∃ o, walkParts v' ts = some (.str o) ∧ pyStrip o = c.text
  | .nil, i0, pre, _hwf => by intro c hc; simp [walkArrFrom] at hc
  | .cons v rest, i0, pre, hwf => by
    intro c hc
    rw [wfArr] at hwf
    simp only [Bool.and_eq_true] at hwf
    obtain ⟨hwfv, hwfrest⟩ := hwf
    rw [walkArrFrom] at hc
    rcases List.mem_append.1 hc with h | h
    · obtain ⟨ts, hpath, hclean, o, hwp, hstrip⟩ := walkSound v (pre ++ [indexTok i0]) hwfv c h
      refine ⟨i0, ts, v, le_refl i0, ?_, ?_, ?_, o, hwp, hstrip⟩
      · rw [Nat.sub_self]
        rfl
      · rw [hpath, List.append_assoc]
        rfl
      · intro t ht
        rcases List.mem_cons.1 ht with rfl | ht'
        · exact indexTok_no_dot i0
        · exact hclean t ht'
    · obtain ⟨j, ts, v', hij, hget, hpath, hclean, o, hwp, hstrip⟩ :=
        walkArrSound rest (i0 + 1) pre hwfrest c h
      refine ⟨j, ts, v', by omega, ?_, hpath, hclean, o, hwp, hstrip⟩
      have heq : j - i0 = (j - (i0 + 1)) + 1 := by omega
      rw [heq]
      exact hget

end

/-- C10: round trip between the Extractor and the explicit-path strategy —
on a mapping payload whose keys everywhere are dot-free and not
`[...]`-shaped (and unique within each mapping, as Python dicts guarantee),
walking the extractor's rendered path with the handler's path strategy
recovers a string whose stripped form is the extracted code. -/
theorem extract_path_roundtrip (payload : JsonValue) (es : JsonObj)
    (hpay : payload = .obj es) (hwf : wfKeys payload = true)
    (code p : String) (hex : extract_code_from_json payload = (some code, some p))
    (_hp : p ≠ "") :
    ∃ o, (walkParts payload (splitDot p)).bind normalize_code = some o ∧
      pyStrip o = code := by
  subst hpay
  rw [extract_code_from_json] at hex
  cases hs : sortCands (walk (.obj es) []) with
  | nil => rw [hs] at hex; simp at hex
  | cons c rest =>
    rw [hs] at hex
    simp only [Prod.mk.injEq, Option.some.injEq] at hex
    obtain ⟨hcode, hpathp⟩ := hex
    have hmem : c ∈ walk (.obj es) [] := (mem_sortCands c _).1 (by simp [hs])
    obtain ⟨k, ts, v', hlook, hgood, hpathtok, hclean, o, hwp, hstrip⟩ :=
      walkObjSound es [] hwf c hmem
    have hcp : c.path = k :: ts := by simpa using hpathtok
    have hsplit : splitDot p = c.path := by
      rw [← hpathp, hcp]
      exact splitDot_joinWith (k :: ts) (by simp) hclean
    refine ⟨o, ?_, by rw [hstrip, hcode]⟩
    rw [hsplit, hcp]
    rw [walkParts_cons _ _ _ _ (walkStep_key es k v' hgood hlook)]
    rw [hwp]
    rfl

/-- Witness for C10 at the spec's example payload. -/
theorem extract_path_roundtrip_witness :
    ∃ o, (walkParts exResult (splitDot "result.answer")).bind normalize_code = some o ∧
      pyStrip o = "def f(x):\n    return x+1" :=
  extract_path_roundtrip exResult
    (.cons "result" (.obj (.cons "answer" (.str "def f(x):\n    return x+1") .nil)) .nil)
    rfl (by decide) "def f(x):\n    return x+1" "result.answer" rfl (by decide)
